import Mathlib

/-!
Verification of the gfx_text core: the atlas builder (src/src/font.rs), the
text layout engine and the buffer growth policy (src/src/lib.rs), shallowly
embedded in Lean.  Machine integers (i32, i64, usize) are modelled as Int or
Nat; the one cast where wrap-around is observable in the claims, namely
`self.vertex_data.len() as u32` and the following u32 additions when pushing
indices (src/src/lib.rs:360, 400-410), is modelled explicitly with `% 2^32`.
Pixel cursors and vertex positions are f32 in the source but hold only values
obtained by casting i32 and adding such casts; they are modelled as exact
integers.  Normalized texture coordinates (f32 divisions in
src/src/font.rs:260-265) are modelled as rationals.
-/

namespace GfxText

/-! ## Buffer growth policy (src/src/lib.rs:536-544) -/

/-- Embeds the `while current_size < desired_size { current_size *= 2 }` loop
of `grow_buffer_size`; the entry invariant 0 < current_size is what the
preceding `if current_size < 1 { current_size = 1 }` establishes. -/
def growFrom (current_size desired_size : Nat) (h : 0 < current_size) : Nat :=
  if hlt : current_size < desired_size then
    growFrom (current_size * 2) desired_size (by omega)
  else current_size
termination_by desired_size - current_size
decreasing_by omega

/-- Embeds `grow_buffer_size` (src/src/lib.rs:536-544). -/
def grow_buffer_size (current_size desired_size : Nat) : Nat :=
  growFrom (if current_size < 1 then 1 else current_size) desired_size
    (by split <;> omega)

/-! ## Text layout engine: data model (src/src/lib.rs, src/src/font.rs) -/

/-- Embeds `[f32; 4]` RGBA color values; the layout engine only copies them. -/
abbrev Color := ℚ × ℚ × ℚ × ℚ

/-- Embeds `[f32; 3]` world positions; the layout engine only copies them. -/
abbrev Vec3 := ℚ × ℚ × ℚ

/-- Embeds `BitmapChar` (src/src/font.rs:20-34).  The transient `data` field
(raw bitmap bytes, dropped during packing) carries no quantity any claim
mentions and is omitted. -/
structure BitmapChar where
  x_offset : Int
  y_offset : Int
  x_advance : Int
  width : Int
  height : Int
  tex : ℚ × ℚ
  tex_width : ℚ
  tex_height : ℚ
  deriving DecidableEq, Inhabited

/-- Embeds the vertex layout of src/src/lib.rs:563-570. -/
structure Vertex where
  pos : Int × Int
  tex : ℚ × ℚ
  world_pos : Vec3
  screen_rel : Int
  color : Color
  deriving DecidableEq, Inhabited

/-- The pending CPU-side lists `vertex_data` and `index_data` of `Renderer`
(src/src/lib.rs:128, 130). -/
structure RenderState where
  vertex_data : List Vertex
  index_data : List Nat
  deriving DecidableEq, Inhabited

/-- The character table of a built `BitmapFont`, modelled as an association
list (the source uses a HashMap, src/src/font.rs:16). -/
abbrev FontChars := List (Char × BitmapChar)

/-- Embeds `BitmapFont::find_char` (src/src/font.rs:291-293). -/
def find_char (font : FontChars) (ch : Char) : Option BitmapChar :=
  font.lookup ch

/-- Reduction of a Nat to the range of u32, modelling the
`self.vertex_data.len() as u32` cast and u32 addition. -/
def u32mod (n : Nat) : Nat := n % 2 ^ 32

/-- Embeds one loop iteration body of `Renderer::add_generic` for a character
present in the atlas (src/src/lib.rs:357-410): push the four quad vertices in
the order top-left, bottom-left, bottom-right, top-right and the six indices
of the two triangles. -/
def push_quad (ci : BitmapChar) (world_pos : Vec3) (screen_rel : Int)
    (color : Color) (x y : Int) (st : RenderState) : RenderState :=
  let x_offset := x + ci.x_offset
  let y_offset := y + ci.y_offset
  let tex := ci.tex
  let index := u32mod st.vertex_data.length
  { vertex_data := st.vertex_data ++
      [ { pos := (x_offset, y_offset), tex := (tex.1, tex.2),
          world_pos := world_pos, screen_rel := screen_rel, color := color },
        { pos := (x_offset, y_offset + ci.height),
          tex := (tex.1, tex.2 + ci.tex_height),
          world_pos := world_pos, screen_rel := screen_rel, color := color },
        { pos := (x_offset + ci.width, y_offset + ci.height),
          tex := (tex.1 + ci.tex_width, tex.2 + ci.tex_height),
          world_pos := world_pos, screen_rel := screen_rel, color := color },
        { pos := (x_offset + ci.width, y_offset),
          tex := (tex.1 + ci.tex_width, tex.2),
          world_pos := world_pos, screen_rel := screen_rel, color := color } ],
    index_data := st.index_data ++
      [ u32mod (index + 0), u32mod (index + 1), u32mod (index + 3),
        u32mod (index + 3), u32mod (index + 1), u32mod (index + 2) ] }

/-- Embeds the `for ch in text.chars()` loop of `Renderer::add_generic`
(src/src/lib.rs:349-413): characters absent from the atlas are skipped,
present ones emit a quad and advance the cursor by x_advance. -/
def add_loop (font : FontChars) (world_pos : Vec3) (screen_rel : Int)
    (color : Color) : List Char → Int → Int → RenderState → RenderState
  | [], _, _, st => st
  | ch :: rest, x, y, st =>
    match find_char font ch with
    | none => add_loop font world_pos screen_rel color rest x y st
    | some ci =>
        add_loop font world_pos screen_rel color rest (x + ci.x_advance) y
          (push_quad ci world_pos screen_rel color x y st)

/-- Embeds `Renderer::add_generic` (src/src/lib.rs:342-414); `Sum` stands for
the `Result
` used there as an Either of screen and world positions. -/
def add_generic (font : FontChars) (text : List Char)
    (pos : Sum (Int × Int) Vec3) (color : Color) (st : RenderState) :
    RenderState :=
  match pos with
  | .inl screen_pos =>
      add_loop font (0, 0, 0) 1 color text screen_pos.1 screen_pos.2 st
  | .inr world_pos => add_loop font world_pos 0 color text 0 0 st

/-- Embeds `Renderer::add` (src/src/lib.rs:310-312). -/
def Renderer.add (font : FontChars) (text : List Char) (pos : Int × Int)
    (color : Color) (st : RenderState) : RenderState :=
  add_generic font text (.inl pos) color st

/-- Embeds `Renderer::add_at` (src/src/lib.rs:338-340). -/
def Renderer.add_at (font : FontChars) (text : List Char) (pos : Vec3)
    (color : Color) (st : RenderState) : RenderState :=
  add_generic font text (.inr pos) color st

/-- Embeds the loop of `Renderer::measure` (src/src/lib.rs:514-523):
accumulator is (width, height, last_char). -/
def measure_loop (font : FontChars) :
    List Char → Int × Int × Option BitmapChar → Int × Int × Option BitmapChar
  | [], acc => acc
  | ch :: rest, (width, height, last_char) =>
    match find_char font ch with
    | none => measure_loop font rest (width, height, last_char)
    | some ci =>
        measure_loop font rest
          (width + ci.x_advance, max height (ci.y_offset + ci.height), some ci)

/-- Embeds `Renderer::measure` (src/src/lib.rs:509-531), including the final
correction `width += info.x_offset + info.width - info.x_advance` applied for
the last character found in the atlas. -/
def Renderer.measure (font : FontChars) (text : List Char) : Int × Int :=
  let r := measure_loop font text (0, 0, none)
  match r.2.2 with
  | some info => (r.1 + info.x_offset + info.width - info.x_advance, r.2.1)
  | none => (r.1, r.2.1)

/-- Embeds `HorizontalAnchor` (src/src/lib.rs:81-88). -/
inductive HorizontalAnchor where
  | Left
  | Center
  | Right
  deriving DecidableEq

/-- Embeds `VerticalAnchor` (src/src/lib.rs:92-99). -/
inductive VerticalAnchor where
  | Top
  | Center
  | Bottom
  deriving DecidableEq

/-- Embeds `Renderer::add_anchored` (src/src/lib.rs:316-335).  Rust i32
division truncates toward zero, hence Int.tdiv. -/
def Renderer.add_anchored (font : FontChars) (text : List Char)
    (pos : Int × Int) (horizontal : HorizontalAnchor)
    (vertical : VerticalAnchor) (color : Color) (st : RenderState) :
    RenderState :=
  if horizontal = HorizontalAnchor.Left ∧ vertical = VerticalAnchor.Top then
    add_generic font text (.inl pos) color st
  else
    let m := Renderer.measure font text
    let x := match horizontal with
      | .Left => pos.1
      | .Center => pos.1 - Int.tdiv m.1 2
      | .Right => pos.1 - m.1
    let y := match vertical with
      | .Top => pos.2
      | .Center => pos.2 - Int.tdiv m.2 2
      | .Bottom => pos.2 - m.2
    add_generic font text (.inl (x, y)) color st

/-! ## Spec-side layout definitions, for comparison with the source -/

/-- The characters of the text that are present in the atlas, in order, as
their metrics records. -/
def presentGlyphs (font : FontChars) (text : List Char) : List BitmapChar :=
  text.filterMap (find_char font)

/-- The total advance width in the words of the spec: the sum of x_advance
over the characters of the string that are present in the atlas.  Stated from
the spec sentence for comparison with `Renderer.measure`. -/
def specAdvanceWidth (font : FontChars) (text : List Char) : Int :=
  ((presentGlyphs font text).map (fun ci => ci.x_advance)).sum

/-- Maximum of (y_offset + height) over a list of glyph records, starting
from 0, exactly as the measure loop accumulates it. -/
def maxGlyphHeight (l : List BitmapChar) : Int :=
  l.foldl (fun h ci => max h (ci.y_offset + ci.height)) 0

/-- The index pattern of one quad whose four vertices start at position
`base` of the vertex list, after the u32 cast: two triangles
(TL, BL, TR) and (TR, BL, BR). -/
def indexBlockAt (base : Nat) : List Nat :=
  [ u32mod base, u32mod (base + 1), u32mod (base + 3),
    u32mod (base + 3), u32mod (base + 1), u32mod (base + 2) ]

/-- Index blocks of n consecutive quads, the first one based at `base`. -/
def blocksFrom (base : Nat) : Nat → List Nat
  | 0 => []
  | n + 1 => indexBlockAt base ++ blocksFrom (base + 4) n

/-- The triangle-list topology the spec states, without any u32 reduction:
quad k uses vertices 4k .. 4k+3 as (TL, BL, TR) and (TR, BL, BR), with TL, BL,
BR, TR stored in that order. -/
def trianglePattern : Nat → Nat → List Nat
  | _, 0 => []
  | base, n + 1 =>
      [base, base + 1, base + 3, base + 3, base + 1, base + 2] ++
        trianglePattern (base + 4) n

/-- Translation of a vertex by (dx, dy); only the position field moves. -/
def shiftVertex (dx dy : Int) (v : Vertex) : Vertex :=
  { v with pos := (v.pos.1 + dx, v.pos.2 + dy) }

/-- One pending-geometry call on the renderer: the three public entry points
that append to the pending lists. -/
inductive RenderOp where
  | add (text : List Char) (pos : Int × Int) (color : Color)
  | add_at (text : List Char) (pos : Vec3) (color : Color)
  | add_anchored (text : List Char) (pos : Int × Int)
      (horizontal : HorizontalAnchor) (vertical : VerticalAnchor)
      (color : Color)

/-- Apply one call to the pending state. -/
def applyOp (font : FontChars) (st : RenderState) : RenderOp → RenderState
  | .add text pos color => Renderer.add font text pos color st
  | .add_at text pos color => Renderer.add_at font text pos color st
  | .add_anchored text pos horizontal vertical color =>
      Renderer.add_anchored font text pos horizontal vertical color st

/-- Run a sequence of calls on a freshly built renderer (empty pending
lists). -/
def runOps (font : FontChars) (ops : List RenderOp) : RenderState :=
  ops.foldl (applyOp font) ⟨[], []⟩

/-! ## Atlas builder (src/src/font.rs) -/

/-- Embeds the per-character output of the glyph source as consumed by pass 1
of `BitmapFont::new` (src/src/font.rs:157-185): bitmap dimensions, placement
metrics and the fixed-point horizontal advance.  The raw bitmap bytes are
consumed only by the image assembly (`dump_row`), which writes pixel data and
defines no quantity any claim mentions; they are omitted. -/
structure RawGlyph where
  width : Int
  height : Int
  bitmap_left : Int
  bitmap_top : Int
  advance_x : Int
  deriving DecidableEq, Inhabited

/-- Embeds `FontError` (src/src/font.rs:36-43); the FreeType error payload is
dropped.  The NoFont constructor is the one exception: it is constructed at
src/src/lib.rs:253 but its declaration is absent from the `FontError` of
src/src/font.rs, so it is modelled from the spec (NoFontSpecified, the fatal
configuration error when neither a default, path, nor byte source is
available). -/
inductive FontError where
  | NoFont
  | EmptyFont
  | FreetypeError
  deriving DecidableEq

/-- Embeds the resolution of the needed character set
(src/src/font.rs:86-88): the supplied slice if any, else all face characters;
both are collected into a HashSet, modelled as deduplication of a list whose
order stands for the arbitrary hash iteration order. -/
def resolve_chars (chars : Option (List Char)) (face_chars : List Char) :
    List Char :=
  match chars with
  | some sl => sl.dedup
  | none => face_chars.dedup

/-- Embeds the rasterization calls of pass 1 (src/src/font.rs:157-167): each
needed character is loaded once; a FreeType failure aborts the build. -/
def rasterize_all (rasterize : Char → Option RawGlyph) :
    List Char → Option (List (Char × RawGlyph))
  | [] => some []
  | ch :: rest =>
    match rasterize ch with
    | none => none
    | some g =>
      match rasterize_all rasterize rest with
      | none => none
      | some l => some ((ch, g) :: l)

/-- Embeds the `sum_image_width` aggregate of pass 1 (src/src/font.rs:182). -/
def sum_image_width (l : List (Char × RawGlyph)) : Int :=
  (l.map (fun p => p.2.width)).sum

/-- Embeds the `max_ch_width` aggregate of pass 1 (src/src/font.rs:183),
starting from 0. -/
def max_ch_width (l : List (Char × RawGlyph)) : Int :=
  l.foldl (fun m p => max m p.2.width) 0

/-- Embeds the `ch_box_height` aggregate of pass 1 (src/src/font.rs:184),
starting from 0. -/
def ch_box_height (l : List (Char × RawGlyph)) : Int :=
  l.foldl (fun m p => max m p.2.height) 0

/-- Largest k at most the fuel bound with k * k at most n: the floor square
root, by downward search. -/
def nat_sqrt_aux (n : Nat) : Nat → Nat
  | 0 => 0
  | k + 1 => if (k + 1) * (k + 1) ≤ n then k + 1 else nat_sqrt_aux n k

/-- Floor square root on Nat, executable by the kernel. -/
def nat_sqrt (n : Nat) : Nat := nat_sqrt_aux n n

/-- Embeds `(ideal_image_size as f32).sqrt() as i32`
(src/src/font.rs:197-198) as the integer square root.  The f32 rounding could
differ from the exact floor square root by a few units; no theorem below
depends on the value, only on `image_width` being at least `max_ch_width`,
which the following max enforces, and on it being nonnegative. -/
def ideal_image_width (ideal_image_size : Int) : Int :=
  Int.ofNat (nat_sqrt ideal_image_size.toNat)

/-- A glyph together with the pixel placement that the packing loop records
into its `tex` field before normalization (src/src/font.rs:251). -/
structure PlacedGlyph where
  glyph : RawGlyph
  px : Int
  py : Int
  deriving DecidableEq, Inhabited

/-- Embeds the packing loop of pass 2 (src/src/font.rs:242-255): shelf
packing with row height `box_height`; a glyph that does not fit the current
row starts a new one.  Returns the placements in iteration order and the
final `image_height` (the last row is dumped after the loop, adding one more
`box_height`, src/src/font.rs:254-255). -/
def pack_loop (image_width box_height : Int) :
    List (Char × RawGlyph) → Int → Int → List (Char × PlacedGlyph) × Int
  | [], _, image_height => ([], image_height + box_height)
  | (ch, g) :: rest, cursor_x, image_height =>
    if cursor_x + g.width > image_width then
      let r := pack_loop image_width box_height rest g.width
        (image_height + box_height)
      ((ch, ⟨g, 0, image_height + box_height⟩) :: r.1, r.2)
    else
      let r := pack_loop image_width box_height rest (cursor_x + g.width)
        image_height
      ((ch, ⟨g, cursor_x, image_height⟩) :: r.1, r.2)

/-- Embeds the pass-1 metrics computation (src/src/font.rs:161-180) combined
with the final normalization (src/src/font.rs:260-265): x_offset is
bitmap_left, y_offset is font_size - bitmap_top, x_advance is the arithmetic
right shift of the fixed-point advance by 6 (floor division by 64), and the
texture rectangle is the pixel placement and extent divided by the image
dimensions, in exact rational arithmetic. -/
def normalize_char (font_size image_width image_height : Int)
    (p : Char × PlacedGlyph) : Char × BitmapChar :=
  (p.1,
   { x_offset := p.2.glyph.bitmap_left,
     y_offset := font_size - p.2.glyph.bitmap_top,
     x_advance := Int.fdiv p.2.glyph.advance_x 64,
     width := p.2.glyph.width,
     height := p.2.glyph.height,
     tex := ((p.2.px : ℚ) / (image_width : ℚ),
             (p.2.py : ℚ) / (image_height : ℚ)),
     tex_width := (p.2.glyph.width : ℚ) / (image_width : ℚ),
     tex_height := (p.2.glyph.height : ℚ) / (image_height : ℚ) })

/-- The built atlas: image dimensions and the character table
(src/src/font.rs:12-18).  The `placements` field retains the pixel placements
that src/src/font.rs:251 records transiently inside `tex` before the
normalization pass overwrites them; `chars` is derived from it exactly as the
source derives the final table.  The image bytes assembled by `dump_row` are
omitted (no claim mentions them). -/
structure BitmapFontModel where
  width : Int
  height : Int
  chars : List (Char × BitmapChar)
  placements : List (Char × PlacedGlyph)
  deriving DecidableEq, Inhabited

/-- Embeds `image_width = max(max_ch_width, ideal_image_width)`
(src/src/font.rs:197-199). -/
def atlas_image_width (chars_info : List (Char × RawGlyph)) : Int :=
  max (max_ch_width chars_info)
    (ideal_image_width (sum_image_width chars_info *
      ch_box_height chars_info))

/-- The packing of pass 2 run from the initial state cursor_x = 0,
image_height = 0 (src/src/font.rs:204-255). -/
def atlas_pack (chars_info : List (Char × RawGlyph)) :
    List (Char × PlacedGlyph) × Int :=
  pack_loop (atlas_image_width chars_info) (ch_box_height chars_info)
    chars_info 0 0

/-- Embeds `BitmapFont::new` (src/src/font.rs:85-276): resolve the character
set, fail on an empty set, rasterize every character (a failure aborts),
compute the aggregates, pick the image width, pack, and normalize. -/
def BitmapFont.new (face_chars : List Char)
    (rasterize : Char → Option RawGlyph) (font_size : Int)
    (chars : Option (List Char)) : Except FontError BitmapFontModel :=
  let needed_chars := resolve_chars chars face_chars
  if needed_chars.isEmpty then .error .EmptyFont
  else
    match rasterize_all rasterize needed_chars with
    | none => .error .FreetypeError
    | some chars_info =>
      .ok { width := atlas_image_width chars_info,
            height := (atlas_pack chars_info).2,
            chars := (atlas_pack chars_info).1.map
              (normalize_char font_size (atlas_image_width chars_info)
                (atlas_pack chars_info).2),
            placements := (atlas_pack chars_info).1 }

/-- Membership of an integer point in the pixel rectangle of a placed glyph:
top-left at the recorded placement, extent width times height. -/
def inRect (q : PlacedGlyph) (x y : Int) : Prop :=
  q.px ≤ x ∧ x < q.px + q.glyph.width ∧ q.py ≤ y ∧ y < q.py + q.glyph.height

/-- Two placed glyph rectangles are disjoint: no integer pixel lies in
both. -/
def placedDisjoint (a b : PlacedGlyph) : Prop :=
  ∀ x y : Int, ¬(inRect a x y ∧ inRect b x y)

/-! ## Renderer builder: font source resolution (src/src/lib.rs) -/

/-- The font source `RendererBuilder::build` settles on
(src/src/lib.rs:248-255): `BitmapFont::from_path` on the configured path, or
`BitmapFont::from_bytes` on the configured bytes. -/
inductive FontSource where
  | from_path (path : List Char)
  | from_bytes (data : List Nat)
  deriving DecidableEq

/-- Embeds the font source match of `RendererBuilder::build`
(src/src/lib.rs:248-255): a path takes precedence over byte data; with
neither, the build fails with the NoFont error. -/
def select_font_source (font_path : Option (List Char))
    (font_data : Option (List Nat)) : Except FontError FontSource :=
  match font_path with
  | some path => .ok (.from_path path)
  | none =>
    match font_data with
    | some data => .ok (.from_bytes data)
    | none => .error .NoFont

/-- Embeds `DEFAULT_FONT_DATA` without the include-font feature
(src/src/lib.rs:60-62): no embedded default font. -/
def DEFAULT_FONT_DATA : Option (List Nat) := none

/-- The configuration fields of `RendererBuilder` that the font source
resolution reads (src/src/lib.rs:149-166). -/
structure RendererBuilderModel where
  font_size : Nat
  font_path : Option (List Char)
  font_data : Option (List Nat)
  buffer_size : Nat
  chars : Option (List Char)

/-- Embeds `RendererBuilder::new` (src/src/lib.rs:175-188): default size 16,
no path, the default font data, buffer size 128, all face characters. -/
def RendererBuilder.new : RendererBuilderModel :=
  { font_size := 16,
    font_path := none,
    font_data := DEFAULT_FONT_DATA,
    buffer_size := 128,
    chars := none }

/-! ## Lemmas on the growth loop -/

lemma growFrom_of_lt (c d : Nat) (h : 0 < c) (hlt : c < d) :
    growFrom c d h = growFrom (c * 2) d (by omega) := by
  rw [growFrom]
  simp [hlt]

lemma growFrom_of_ge (c d : Nat) (h : 0 < c) (hge : ¬ c < d) :
    growFrom c d h = c := by
  rw [growFrom]
  simp [hge]

lemma growFrom_spec : ∀ (n c d : Nat) (h : 0 < c), d - c ≤ n →
    ∃ k, growFrom c d h = c * 2 ^ k ∧ ∀ j, d ≤ c * 2 ^ j → k ≤ j := by
  intro n
  induction n with
  | zero =>
    intro c d h hn
    have hge : ¬ c < d := by omega
    exact ⟨0, by rw [growFrom_of_ge c d h hge]; ring,
      fun j _ => Nat.zero_le j⟩
  | succ n ih =>
    intro c d h hn
    by_cases hlt : c < d
    · obtain ⟨k, hk, hmin⟩ := ih (c * 2) d (by omega) (by omega)
      refine ⟨k + 1, ?_, ?_⟩
      · rw [growFrom_of_lt c d h hlt, hk]
        ring
      · intro j hj
        match j with
        | 0 =>
          simp at hj
          omega
        | j + 1 =>
          have hj2 : d ≤ c * 2 * 2 ^ j := by
            calc d ≤ c * 2 ^ (j + 1) := hj
            _ = c * 2 * 2 ^ j := by ring
          exact Nat.succ_le_succ (hmin j hj2)
    · exact ⟨0, by rw [growFrom_of_ge c d h hlt]; ring,
        fun j _ => Nat.zero_le j⟩

lemma growFrom_ge_desired : ∀ (n c d : Nat) (h : 0 < c), d - c ≤ n →
    d ≤ growFrom c d h := by
  intro n
  induction n with
  | zero =>
    intro c d h hn
    have hge : ¬ c < d := by omega
    rw [growFrom_of_ge c d h hge]
    omega
  | succ n ih =>
    intro c d h hn
    by_cases hlt : c < d
    · rw [growFrom_of_lt c d h hlt]
      exact ih (c * 2) d (by omega) (by omega)
    · rw [growFrom_of_ge c d h hlt]
      omega

/-- C2 (amended): grow_buffer_size treats a current capacity below 1 as 1,
then doubles until the result reaches the required capacity; it never
returns less than the current or the required capacity, the result is the
smallest power-of-two multiple of the clamped current capacity that reaches
the requirement, grow(0, 5) = 8, grow(128, 128) = 128, and grow(100, 300) is
the smallest power-of-two multiple of 100 that is at least 300, namely 400
(not 800 as the spec computes). -/
theorem grow_buffer_size_spec :
    ∀ current desired : Nat,
      current ≤ grow_buffer_size current desired ∧
      desired ≤ grow_buffer_size current desired ∧
      (∃ k, grow_buffer_size current desired = max current 1 * 2 ^ k ∧
        ∀ j, desired ≤ max current 1 * 2 ^ j → k ≤ j) ∧
      grow_buffer_size 0 5 = 8 ∧
      grow_buffer_size 128 128 = 128 ∧
      grow_buffer_size 100 300 = 400 := by
  have hmax : ∀ current : Nat,
      (if current < 1 then 1 else current) = max current 1 := by
    intro current
    split <;> omega
  have h05 : grow_buffer_size 0 5 = 8 := by
    unfold grow_buffer_size
    rw [growFrom_of_lt, growFrom_of_lt, growFrom_of_lt, growFrom_of_ge] <;>
      norm_num
  have h128 : grow_buffer_size 128 128 = 128 := by
    unfold grow_buffer_size
    rw [growFrom_of_ge] <;> norm_num
  have h100 : grow_buffer_size 100 300 = 400 := by
    unfold grow_buffer_size
    rw [growFrom_of_lt, growFrom_of_lt, growFrom_of_ge] <;> norm_num
  intro current desired
  obtain ⟨k, hk, hmin⟩ := growFrom_spec
    (desired - (if current < 1 then 1 else current))
    (if current < 1 then 1 else current) desired (by split <;> omega)
    (by omega)
  refine ⟨?_, ?_, ⟨k, ?_, ?_⟩, h05, h128, h100⟩
  · unfold grow_buffer_size
    rw [hk]
    have h2k : 0 < 2 ^ k := Nat.pos_pow_of_pos k (by omega)
    rcases Nat.lt_or_ge current 1 with hc | hc
    · have hc0 : current = 0 := by omega
      rw [hc0]
      exact Nat.zero_le _
    · rw [if_neg (by omega)]
      exact Nat.le_mul_of_pos_right _ h2k
  · unfold grow_buffer_size
    exact growFrom_ge_desired
      (desired - (if current < 1 then 1 else current)) _ _ _ (by omega)
  · unfold grow_buffer_size
    rw [hk, hmax]
  · intro j hj
    rw [← hmax current] at hj
    exact hmin j hj

/-- C2 counterexample: the claim states grow(100, 300) = 800; the code
returns 400. -/
theorem grow_100_300_counterexample :
    grow_buffer_size 100 300 = 400 ∧ grow_buffer_size 100 300 ≠ 800 := by
  have h100 : grow_buffer_size 100 300 = 400 := by
    unfold grow_buffer_size
    rw [growFrom_of_lt, growFrom_of_lt, growFrom_of_ge] <;> norm_num
  exact ⟨h100, by rw [h100]; norm_num⟩

/-! ## Lemmas on measure -/

lemma getLast?_cons_or {α : Type} (a : α) (l : List α) :
    (a :: l).getLast? = l.getLast?.or (some a) := by
  induction l with
  | nil => rfl
  | cons b t ih =>
    rw [List.getLast?_cons_cons]
    cases h : (b :: t).getLast? with
    | none =>
      rw [List.getLast?_eq_none_iff] at h
      exact absurd h (by simp)
    | some x => rfl

lemma presentGlyphs_nil (font : FontChars) : presentGlyphs font [] = [] := rfl

lemma presentGlyphs_cons_none (font : FontChars) {ch : Char}
    (rest : List Char) (h : find_char font ch = none) :
    presentGlyphs font (ch :: rest) = presentGlyphs font rest := by
  simp [presentGlyphs, List.filterMap_cons, h]

lemma presentGlyphs_cons_some (font : FontChars) {ch : Char}
    {ci : BitmapChar} (rest : List Char) (h : find_char font ch = some ci) :
    presentGlyphs font (ch :: rest) = ci :: presentGlyphs font rest := by
  simp [presentGlyphs, List.filterMap_cons, h]

lemma measure_loop_eq (font : FontChars) :
    ∀ (text : List Char) (w h : Int) (lc : Option BitmapChar),
      measure_loop font text (w, h, lc) =
        (w + ((presentGlyphs font text).map (fun ci => ci.x_advance)).sum,
         (presentGlyphs font text).foldl
           (fun a ci => max a (ci.y_offset + ci.height)) h,
         ((presentGlyphs font text).getLast?).or lc) := by
  intro text
  induction text with
  | nil =>
    intro w h lc
    simp [measure_loop, presentGlyphs_nil]
  | cons ch rest ih =>
    intro w h lc
    cases hfc : find_char font ch with
    | none =>
      rw [show measure_loop font (ch :: rest) (w, h, lc) =
        measure_loop font rest (w, h, lc) by simp [measure_loop, hfc]]
      rw [ih, presentGlyphs_cons_none font rest hfc]
    | some ci =>
      rw [show measure_loop font (ch :: rest) (w, h, lc) =
        measure_loop font rest (w + ci.x_advance,
          max h (ci.y_offset + ci.height), some ci) by
        simp [measure_loop, hfc]]
      rw [ih, presentGlyphs_cons_some font rest hfc]
      refine congrArg₂ Prod.mk (by simp; ring) (congrArg₂ Prod.mk rfl ?_)
      rw [getLast?_cons_or, Option.or_assoc]
      rfl

/-- C1 (amended): measure returns, for a string with at least one
atlas-present character, a width equal to the sum of x_advance over the
atlas-present characters corrected for the last of them (its x_advance
replaced by its x_offset + width), and a height equal to the maximum of
(y_offset + height) over those characters; for the empty string, or a string
with no atlas-present characters, it returns (0, 0). -/
theorem measure_characterization (font : FontChars) (text : List Char) :
    Renderer.measure font text =
      match (presentGlyphs font text).getLast? with
      | none => (0, 0)
      | some info =>
          (specAdvanceWidth font text +
             (info.x_offset + info.width - info.x_advance),
           maxGlyphHeight (presentGlyphs font text)) := by
  unfold Renderer.measure
  rw [measure_loop_eq]
  cases h : (presentGlyphs font text).getLast? with
  | none =>
    have hnil : presentGlyphs font text = [] :=
      List.getLast?_eq_none_iff.mp h
    simp [hnil, h]
  | some info =>
    simp only [h, Option.or_some]
    refine congrArg₂ Prod.mk ?_ rfl
    unfold specAdvanceWidth
    ring

/-- C1 counterexample: an atlas in which the single character of the text
has x_advance = 10 but x_offset + width = 5; the claim says the measured
width is the total advance width 10, the code returns 5. -/
theorem measure_width_counterexample :
    specAdvanceWidth [('a', (⟨0, 0, 10, 5, 7, (0, 0), 0, 0⟩ : BitmapChar))]
        ['a'] = 10 ∧
      (Renderer.measure [('a', (⟨0, 0, 10, 5, 7, (0, 0), 0, 0⟩ : BitmapChar))]
        ['a']).1 = 5 := by
  constructor <;> rfl

/-! ## Claim C5: empty character set -/

/-- C5: BitmapFont.new fails with the EmptyFont error if and only if the
resolved character set (the supplied one, or the one enumerated from the
face when none is supplied) is empty; being an error, no atlas is produced
in that case. -/
theorem empty_charset_iff_error (face_chars : List Char)
    (rasterize : Char → Option RawGlyph) (font_size : Int)
    (chars : Option (List Char)) :
    BitmapFont.new face_chars rasterize font_size chars =
        .error .EmptyFont ↔
      resolve_chars chars face_chars = [] := by
  unfold BitmapFont.new
  by_cases he : (resolve_chars chars face_chars).isEmpty
  · simp [he]
    exact List.isEmpty_iff.mp he
  · rw [List.isEmpty_iff] at he
    simp only [List.isEmpty_eq_true, he, if_neg]
    cases h : rasterize_all rasterize (resolve_chars chars face_chars) with
    | none => simp [he]
    | some l => simp [he]

/-! ## Claim C9: font source resolution -/

/-- C9: with neither a font path, caller bytes, nor an embedded default font
(the default builder configuration without the include-font feature), the
build fails with the NoFont error; a configured path takes precedence over
byte data, and bytes are used only when no path is set. -/
theorem font_source_resolution :
    select_font_source RendererBuilder.new.font_path
        RendererBuilder.new.font_data = .error .NoFont ∧
      (∀ path data, select_font_source (some path) data =
        .ok (.from_path path)) ∧
      (∀ data, select_font_source none (some data) =
        .ok (.from_bytes data)) :=
  ⟨rfl, fun _ _ => rfl, fun _ => rfl⟩

/-! ## Lemmas on add_generic: structure of the appended geometry -/

lemma u32mod_shift (L k : Nat) : u32mod (u32mod L + k) = u32mod (L + k) := by
  unfold u32mod
  omega

lemma u32mod_idem (L : Nat) : u32mod (u32mod L) = u32mod L := by
  unfold u32mod
  omega

lemma push_quad_vertex_data (ci : BitmapChar) (wp : Vec3) (sr : Int)
    (color : Color) (x y : Int) (st : RenderState) :
    (push_quad ci wp sr color x y st).vertex_data =
      st.vertex_data ++
        [ ⟨(x + ci.x_offset, y + ci.y_offset), (ci.tex.1, ci.tex.2),
            wp, sr, color⟩,
          ⟨(x + ci.x_offset, y + ci.y_offset + ci.height),
            (ci.tex.1, ci.tex.2 + ci.tex_height), wp, sr, color⟩,
          ⟨(x + ci.x_offset + ci.width, y + ci.y_offset + ci.height),
            (ci.tex.1 + ci.tex_width, ci.tex.2 + ci.tex_height),
            wp, sr, color⟩,
          ⟨(x + ci.x_offset + ci.width, y + ci.y_offset),
            (ci.tex.1 + ci.tex_width, ci.tex.2), wp, sr, color⟩ ] := rfl

lemma push_quad_index_data (ci : BitmapChar) (wp : Vec3) (sr : Int)
    (color : Color) (x y : Int) (st : RenderState) :
    (push_quad ci wp sr color x y st).index_data =
      st.index_data ++ indexBlockAt st.vertex_data.length := by
  unfold push_quad indexBlockAt
  simp only [u32mod_shift, Nat.add_zero, u32mod_idem]

lemma push_quad_vd_length (ci : BitmapChar) (wp : Vec3) (sr : Int)
    (color : Color) (x y : Int) (st : RenderState) :
    (push_quad ci wp sr color x y st).vertex_data.length =
      st.vertex_data.length + 4 := by
  rw [push_quad_vertex_data]
  simp

lemma add_loop_shape (font : FontChars) (wp : Vec3) (sr : Int)
    (color : Color) :
    ∀ (text : List Char) (x y : Int) (st : RenderState),
      ∃ nv : List Vertex,
        add_loop font wp sr color text x y st =
          ⟨st.vertex_data ++ nv,
           st.index_data ++
             blocksFrom st.vertex_data.length
               (presentGlyphs font text).length⟩ ∧
        nv.length = 4 * (presentGlyphs font text).length := by
  intro text
  induction text with
  | nil =>
    intro x y st
    exact ⟨[], by simp [add_loop, presentGlyphs_nil, blocksFrom], by
      simp [presentGlyphs_nil]⟩
  | cons ch rest ih =>
    intro x y st
    cases hfc : find_char font ch with
    | none =>
      obtain ⟨nv, heq, hlen⟩ := ih x y st
      refine ⟨nv, ?_, ?_⟩
      · rw [show add_loop font wp sr color (ch :: rest) x y st =
          add_loop font wp sr color rest x y st by simp [add_loop, hfc]]
        rw [heq, presentGlyphs_cons_none font rest hfc]
      · rw [presentGlyphs_cons_none font rest hfc]
        exact hlen
    | some ci =>
      obtain ⟨nv, heq, hlen⟩ :=
        ih (x + ci.x_advance) y (push_quad ci wp sr color x y st)
      refine ⟨[ ⟨(x + ci.x_offset, y + ci.y_offset), (ci.tex.1, ci.tex.2),
            wp, sr, color⟩,
          ⟨(x + ci.x_offset, y + ci.y_offset + ci.height),
            (ci.tex.1, ci.tex.2 + ci.tex_height), wp, sr, color⟩,
          ⟨(x + ci.x_offset + ci.width, y + ci.y_offset + ci.height),
            (ci.tex.1 + ci.tex_width, ci.tex.2 + ci.tex_height),
            wp, sr, color⟩,
          ⟨(x + ci.x_offset + ci.width, y + ci.y_offset),
            (ci.tex.1 + ci.tex_width, ci.tex.2), wp, sr, color⟩ ] ++ nv,
        ?_, ?_⟩
      · rw [show add_loop font wp sr color (ch :: rest) x y st =
          add_loop font wp sr color rest (x + ci.x_advance) y
            (push_quad ci wp sr color x y st) by simp [add_loop, hfc]]
        rw [heq, presentGlyphs_cons_some font rest hfc]
        rw [push_quad_vertex_data, push_quad_index_data]
        rw [show (ci :: presentGlyphs font rest).length =
          (presentGlyphs font rest).length + 1 from rfl]
        rw [show blocksFrom st.vertex_data.length
            ((presentGlyphs font rest).length + 1) =
          indexBlockAt st.vertex_data.length ++
            blocksFrom (st.vertex_data.length + 4)
              (presentGlyphs font rest).length from rfl]
        simp [List.append_assoc]
      · rw [presentGlyphs_cons_some font rest hfc]
        simp at hlen ⊢
        omega

lemma blocksFrom_length : ∀ (n base : Nat), (blocksFrom base n).length = 6 * n
  | 0, _ => rfl
  | n + 1, base => by
    have ih := blocksFrom_length n (base + 4)
    simp [blocksFrom, indexBlockAt, ih]
    omega

lemma blocksFrom_eq_pattern : ∀ (n base : Nat), base + 4 * n ≤ 2 ^ 32 →
    blocksFrom base n = trianglePattern base n
  | 0, _, _ => rfl
  | n + 1, base, h => by
    have ih := blocksFrom_eq_pattern n (base + 4) (by omega)
    have h0 : u32mod base = base := by unfold u32mod; omega
    have h1 : u32mod (base + 1) = base + 1 := by unfold u32mod; omega
    have h2 : u32mod (base + 2) = base + 2 := by unfold u32mod; omega
    have h3 : u32mod (base + 3) = base + 3 := by unfold u32mod; omega
    simp [blocksFrom, trianglePattern, indexBlockAt, h0, h1, h2, h3, ih]

lemma trianglePattern_mem : ∀ (n base : Nat) (i : Nat),
    i ∈ trianglePattern base n → i < base + 4 * n
  | 0, _, _, h => by simp [trianglePattern] at h
  | n + 1, base, i, h => by
    simp only [trianglePattern, List.mem_append, List.mem_cons,
      List.not_mem_nil, or_false] at h
    rcases h with h | h
    · omega
    · have := trianglePattern_mem n (base + 4) i h
      omega

lemma blocksFrom_mem : ∀ (n base : Nat) (i : Nat),
    i ∈ blocksFrom base n → ∃ t, t < base + 4 * n ∧ i = u32mod t
  | 0, _, _, h => by simp [blocksFrom] at h
  | n + 1, base, i, h => by
    rw [show blocksFrom base (n + 1) =
      indexBlockAt base ++ blocksFrom (base + 4) n from rfl] at h
    rcases List.mem_append.mp h with h | h
    · simp only [indexBlockAt, List.mem_cons, List.not_mem_nil,
        or_false] at h
      rcases h with h | h | h | h | h | h
      · exact ⟨base, by omega, h⟩
      · exact ⟨base + 1, by omega, h⟩
      · exact ⟨base + 3, by omega, h⟩
      · exact ⟨base + 3, by omega, h⟩
      · exact ⟨base + 1, by omega, h⟩
      · exact ⟨base + 2, by omega, h⟩
    · obtain ⟨t, ht, rfl⟩ := blocksFrom_mem n (base + 4) i h
      exact ⟨t, by omega, rfl⟩

lemma presentGlyphs_length_of_all (font : FontChars) (text : List Char)
    (hall : ∀ ch ∈ text, find_char font ch ≠ none) :
    (presentGlyphs font text).length = text.length := by
  induction text with
  | nil => rfl
  | cons ch rest ih =>
    cases hfc : find_char font ch with
    | none => exact absurd hfc (hall ch (by simp))
    | some ci =>
      rw [presentGlyphs_cons_some font rest hfc]
      simp only [List.length_cons]
      rw [ih (fun c hc => hall c (by simp [hc]))]

/-- C6: starting from empty pending lists, add for a string of n characters
all present in the atlas appends exactly 4n vertices and 6n indices, every
index is below 4n, and the index list is exactly the fixed triangle-list
topology (TL, BL, TR), (TR, BL, BR) per quad, provided 4n fits in u32. -/
theorem add_counts_and_topology (font : FontChars) (text : List Char)
    (pos : Int × Int) (color : Color)
    (hall : ∀ ch ∈ text, find_char font ch ≠ none)
    (hsize : 4 * text.length ≤ 2 ^ 32) :
    (Renderer.add font text pos color ⟨[], []⟩).vertex_data.length =
        4 * text.length ∧
      (Renderer.add font text pos color ⟨[], []⟩).index_data.length =
        6 * text.length ∧
      (∀ i ∈ (Renderer.add font text pos color ⟨[], []⟩).index_data,
        i < 4 * text.length) ∧
      (Renderer.add font text pos color ⟨[], []⟩).index_data =
        trianglePattern 0 text.length := by
  obtain ⟨nv, heq, hlen⟩ :=
    add_loop_shape font (0, 0, 0) 1 color text pos.1 pos.2 ⟨[], []⟩
  have hpl := presentGlyphs_length_of_all font text hall
  rw [hpl] at heq hlen
  have hadd : Renderer.add font text pos color ⟨[], []⟩ =
      ⟨nv, blocksFrom 0 text.length⟩ := by
    rw [show Renderer.add font text pos color ⟨[], []⟩ =
      add_loop font (0, 0, 0) 1 color text pos.1 pos.2 ⟨[], []⟩ from rfl]
    rw [heq]
    simp
  rw [hadd]
  have hpat : blocksFrom 0 text.length = trianglePattern 0 text.length :=
    blocksFrom_eq_pattern text.length 0 (by omega)
  refine ⟨hlen, ?_, ?_, hpat⟩
  · simp only [blocksFrom_length]
  · intro i hi
    rw [hpat] at hi
    have := trianglePattern_mem text.length 0 i hi
    omega

/-- C6 witness: a two-character string over a one-glyph atlas. -/
theorem add_counts_and_topology_witness :
    (Renderer.add [('a', (⟨0, 0, 10, 5, 7, (0, 0), 0, 0⟩ : BitmapChar))]
        ['a', 'a'] (1, 2) (0, 0, 0, 1) ⟨[], []⟩).vertex_data.length =
        4 * (['a', 'a'] : List Char).length ∧
      (Renderer.add [('a', (⟨0, 0, 10, 5, 7, (0, 0), 0, 0⟩ : BitmapChar))]
        ['a', 'a'] (1, 2) (0, 0, 0, 1) ⟨[], []⟩).index_data.length =
        6 * (['a', 'a'] : List Char).length ∧
      (∀ i ∈ (Renderer.add
          [('a', (⟨0, 0, 10, 5, 7, (0, 0), 0, 0⟩ : BitmapChar))]
          ['a', 'a'] (1, 2) (0, 0, 0, 1) ⟨[], []⟩).index_data,
        i < 4 * (['a', 'a'] : List Char).length) ∧
      (Renderer.add [('a', (⟨0, 0, 10, 5, 7, (0, 0), 0, 0⟩ : BitmapChar))]
        ['a', 'a'] (1, 2) (0, 0, 0, 1) ⟨[], []⟩).index_data =
        trianglePattern 0 (['a', 'a'] : List Char).length :=
  add_counts_and_topology
    [('a', (⟨0, 0, 10, 5, 7, (0, 0), 0, 0⟩ : BitmapChar))]
    ['a', 'a'] (1, 2) (0, 0, 0, 1) (by decide) (by norm_num)

/-! ## Claim C8: unknown characters are skipped -/

lemma add_loop_skip (font : FontChars) (wp : Vec3) (sr : Int) (color : Color)
    {c : Char} (hc : find_char font c = none) (text2 : List Char) :
    ∀ (text1 : List Char) (x y : Int) (st : RenderState),
      add_loop font wp sr color (text1 ++ c :: text2) x y st =
        add_loop font wp sr color (text1 ++ text2) x y st := by
  intro text1
  induction text1 with
  | nil =>
    intro x y st
    simp [add_loop, hc]
  | cons a t ih =>
    intro x y st
    cases hfa : find_char font a with
    | none => simp [add_loop, hfa, ih]
    | some ci => simp [add_loop, hfa, ih]

/-- C8: a character with no atlas entry contributes no vertices and no
indices and does not advance the cursor: removing it from the text leaves
the emitted state unchanged, for either placement mode, any surrounding
text, position, color, and starting state.  add_generic is a total
function: no error is possible and no placeholder glyph is substituted. -/
theorem unknown_char_skipped (font : FontChars) (c : Char)
    (hc : find_char font c = none) (text1 text2 : List Char)
    (pos : Sum (Int × Int) Vec3) (color : Color) (st : RenderState) :
    add_generic font (text1 ++ c :: text2) pos color st =
      add_generic font (text1 ++ text2) pos color st := by
  cases pos with
  | inl screen_pos =>
    simpa [add_generic] using
      add_loop_skip font (0, 0, 0) 1 color hc text2 text1
        screen_pos.1 screen_pos.2 st
  | inr world_pos =>
    simpa [add_generic] using
      add_loop_skip font world_pos 0 color hc text2 text1 0 0 st

/-- C8 witness: the unknown character between two known ones changes
nothing. -/
theorem unknown_char_skipped_witness :
    add_generic [('a', (⟨0, 0, 10, 5, 7, (0, 0), 0, 0⟩ : BitmapChar))]
        ['a', 'b', 'a'] (.inl (0, 0)) (0, 0, 0, 1) ⟨[], []⟩ =
      add_generic [('a', (⟨0, 0, 10, 5, 7, (0, 0), 0, 0⟩ : BitmapChar))]
        ['a', 'a'] (.inl (0, 0)) (0, 0, 0, 1) ⟨[], []⟩ :=
  unknown_char_skipped
    [('a', (⟨0, 0, 10, 5, 7, (0, 0), 0, 0⟩ : BitmapChar))] 'b'
    (by decide) ['a'] ['a'] (.inl (0, 0)) (0, 0, 0, 1) ⟨[], []⟩

/-! ## Claim C7: center-center anchoring is a pure translation -/

lemma push_quad_shift (ci : BitmapChar) (wp : Vec3) (sr : Int)
    (color : Color) (x y dx dy : Int) (st st' : RenderState)
    (hv : st'.vertex_data = st.vertex_data.map (shiftVertex dx dy))
    (hi : st'.index_data = st.index_data) :
    push_quad ci wp sr color (x + dx) (y + dy) st' =
      ⟨(push_quad ci wp sr color x y st).vertex_data.map
          (shiftVertex dx dy),
        (push_quad ci wp sr color x y st).index_data⟩ := by
  rw [RenderState.mk.injEq]
  constructor
  · rw [push_quad_vertex_data, push_quad_vertex_data, List.map_append, hv]
    refine congrArg _ ?_
    simp only [List.map_cons, List.map_nil, shiftVertex]
    refine congrArg₂ _ ?_ (congrArg₂ _ ?_ (congrArg₂ _ ?_ (congrArg₂ _ ?_
      rfl)))
    all_goals
      rw [Vertex.mk.injEq]
      refine ⟨?_, rfl, rfl, rfl, rfl⟩
      rw [Prod.mk.injEq]
      constructor <;> ring
  · rw [push_quad_index_data, push_quad_index_data, hv, hi,
      List.length_map]

lemma add_loop_shift (font : FontChars) (wp : Vec3) (sr : Int)
    (color : Color) (dx dy : Int) :
    ∀ (text : List Char) (x y : Int) (st st' : RenderState),
      st'.vertex_data = st.vertex_data.map (shiftVertex dx dy) →
      st'.index_data = st.index_data →
      add_loop font wp sr color text (x + dx) (y + dy) st' =
        ⟨(add_loop font wp sr color text x y st).vertex_data.map
            (shiftVertex dx dy),
          (add_loop font wp sr color text x y st).index_data⟩ := by
  intro text
  induction text with
  | nil =>
    intro x y st st' hv hi
    cases st' with
    | mk vd id =>
      simp only [add_loop] at hv hi ⊢
      rw [hv, hi]
  | cons ch rest ih =>
    intro x y st st' hv hi
    cases hfc : find_char font ch with
    | none =>
      rw [show add_loop font wp sr color (ch :: rest) (x + dx) (y + dy) st' =
        add_loop font wp sr color rest (x + dx) (y + dy) st' by
          simp [add_loop, hfc]]
      rw [show add_loop font wp sr color (ch :: rest) x y st =
        add_loop font wp sr color rest x y st by simp [add_loop, hfc]]
      exact ih x y st st' hv hi
    | some ci =>
      rw [show add_loop font wp sr color (ch :: rest) (x + dx) (y + dy) st' =
        add_loop font wp sr color rest (x + dx + ci.x_advance) (y + dy)
          (push_quad ci wp sr color (x + dx) (y + dy) st') by
          simp [add_loop, hfc]]
      rw [show add_loop font wp sr color (ch :: rest) x y st =
        add_loop font wp sr color rest (x + ci.x_advance) y
          (push_quad ci wp sr color x y st) by simp [add_loop, hfc]]
      have hx : x + dx + ci.x_advance = x + ci.x_advance + dx := by ring
      rw [hx]
      rw [push_quad_shift ci wp sr color x y dx dy st st' hv hi]
      exact ih (x + ci.x_advance) y (push_quad ci wp sr color x y st)
        _ rfl rfl

/-- C7: add_anchored with the Center, Center anchor emits the same index
list as add, and the same vertices with every position shifted by exactly
(-(w / 2), -(h / 2)) where (w, h) = measure(text) and the division is the
truncating (toward zero) integer division of Rust i32 arithmetic. -/
theorem add_anchored_center_center_shift (font : FontChars)
    (text : List Char) (pos : Int × Int) (color : Color) :
    Renderer.add_anchored font text pos .Center .Center color ⟨[], []⟩ =
      ⟨(Renderer.add font text pos color ⟨[], []⟩).vertex_data.map
          (shiftVertex (-(Int.tdiv (Renderer.measure font text).1 2))
            (-(Int.tdiv (Renderer.measure font text).2 2))),
        (Renderer.add font text pos color ⟨[], []⟩).index_data⟩ := by
  unfold Renderer.add_anchored Renderer.add add_generic
  rw [if_neg (by simp)]
  simp only
  have h1 : pos.1 - Int.tdiv (Renderer.measure font text).1 2 =
      pos.1 + -(Int.tdiv (Renderer.measure font text).1 2) := by ring
  have h2 : pos.2 - Int.tdiv (Renderer.measure font text).2 2 =
      pos.2 + -(Int.tdiv (Renderer.measure font text).2 2) := by ring
  rw [h1, h2]
  exact add_loop_shift font (0, 0, 0) 1 color _ _ text pos.1 pos.2
    ⟨[], []⟩ ⟨[], []⟩ rfl rfl

/-! ## Claim C10: pending-list invariant under any call sequence -/

/-- The pending-list invariant: the vertex count is a multiple of four, the
index count is six per quad, and every stored index is the u32 reduction of
a position below the vertex count. -/
def pendingInv (st : RenderState) : Prop :=
  st.vertex_data.length % 4 = 0 ∧
  st.index_data.length = st.vertex_data.length / 4 * 6 ∧
  ∀ i ∈ st.index_data, ∃ t, t < st.vertex_data.length ∧ i = u32mod t

lemma add_generic_shape (font : FontChars) (text : List Char)
    (pos : Sum (Int × Int) Vec3) (color : Color) (st : RenderState) :
    ∃ (nv : List Vertex) (m : Nat),
      add_generic font text pos color st =
        ⟨st.vertex_data ++ nv,
          st.index_data ++ blocksFrom st.vertex_data.length m⟩ ∧
      nv.length = 4 * m := by
  cases pos with
  | inl screen_pos =>
    obtain ⟨nv, heq, hlen⟩ :=
      add_loop_shape font (0, 0, 0) 1 color text screen_pos.1 screen_pos.2 st
    exact ⟨nv, (presentGlyphs font text).length, heq, hlen⟩
  | inr world_pos =>
    obtain ⟨nv, heq, hlen⟩ :=
      add_loop_shape font world_pos 0 color text 0 0 st
    exact ⟨nv, (presentGlyphs font text).length, heq, hlen⟩

lemma applyOp_shape (font : FontChars) (st : RenderState) (op : RenderOp) :
    ∃ (nv : List Vertex) (m : Nat),
      applyOp font st op =
        ⟨st.vertex_data ++ nv,
          st.index_data ++ blocksFrom st.vertex_data.length m⟩ ∧
      nv.length = 4 * m := by
  cases op with
  | add text pos color =>
    simpa [applyOp, Renderer.add] using
      add_generic_shape font text (.inl pos) color st
  | add_at text pos color =>
    simpa [applyOp, Renderer.add_at] using
      add_generic_shape font text (.inr pos) color st
  | add_anchored text pos horizontal vertical color =>
    rw [show applyOp font st (.add_anchored text pos horizontal vertical
        color) =
      Renderer.add_anchored font text pos horizontal vertical color st
        from rfl]
    unfold Renderer.add_anchored
    split
    · exact add_generic_shape font text (.inl pos) color st
    · exact add_generic_shape font text (.inl _) color st

lemma pendingInv_applyOp (font : FontChars) (st : RenderState)
    (op : RenderOp) (h : pendingInv st) : pendingInv (applyOp font st op) := by
  obtain ⟨nv, m, heq, hlen⟩ := applyOp_shape font st op
  obtain ⟨h4, h6, hmem⟩ := h
  rw [heq]
  refine ⟨?_, ?_, ?_⟩
  · simp only [List.length_append, hlen]
    omega
  · simp only [List.length_append, hlen, blocksFrom_length, h6]
    omega
  · intro i hi
    simp only [List.length_append, hlen]
    rcases List.mem_append.mp hi with hold | hnew
    · obtain ⟨t, ht, rfl⟩ := hmem i hold
      exact ⟨t, by omega, rfl⟩
    · obtain ⟨t, ht, rfl⟩ :=
        blocksFrom_mem m st.vertex_data.length i hnew
      exact ⟨t, by omega, rfl⟩

lemma pendingInv_runOps (font : FontChars) (ops : List RenderOp) :
    pendingInv (runOps font ops) := by
  have hgen : ∀ (l : List RenderOp) (st : RenderState), pendingInv st →
      pendingInv (l.foldl (applyOp font) st) := by
    intro l
    induction l with
    | nil => intro st h; exact h
    | cons op rest ih =>
      intro st h
      exact ih (applyOp font st op) (pendingInv_applyOp font st op h)
  exact hgen ops ⟨[], []⟩ ⟨rfl, rfl, by intro i hi; simp at hi⟩

/-- C10: after any sequence of add, add_at and add_anchored calls on a
freshly built renderer, the vertex count is a multiple of 4, the index count
is six per quad, and every stored index refers to an existing vertex,
provided the final vertex count fits in u32 (the index type). -/
theorem pending_lists_invariant (font : FontChars) (ops : List RenderOp)
    (hcap : (runOps font ops).vertex_data.length ≤ 2 ^ 32) :
    (runOps font ops).vertex_data.length % 4 = 0 ∧
      (runOps font ops).index_data.length =
        (runOps font ops).vertex_data.length / 4 * 6 ∧
      ∀ i ∈ (runOps font ops).index_data,
        i < (runOps font ops).vertex_data.length := by
  obtain ⟨h4, h6, hmem⟩ := pendingInv_runOps font ops
  refine ⟨h4, h6, ?_⟩
  intro i hi
  obtain ⟨t, ht, rfl⟩ := hmem i hi
  have : u32mod t = t := by unfold u32mod; omega
  rw [this]
  exact ht

/-- C10 witness: one add and one centered add_anchored call. -/
theorem pending_lists_invariant_witness :
    (runOps [('a', (⟨0, 0, 10, 5, 7, (0, 0), 0, 0⟩ : BitmapChar))]
        [.add ['a'] (0, 0) (0, 0, 0, 1),
         .add_anchored ['a'] (3, 4) .Center .Center (0, 0, 0, 1)]
      ).vertex_data.length % 4 = 0 ∧
      (runOps [('a', (⟨0, 0, 10, 5, 7, (0, 0), 0, 0⟩ : BitmapChar))]
        [.add ['a'] (0, 0) (0, 0, 0, 1),
         .add_anchored ['a'] (3, 4) .Center .Center (0, 0, 0, 1)]
      ).index_data.length =
        (runOps [('a', (⟨0, 0, 10, 5, 7, (0, 0), 0, 0⟩ : BitmapChar))]
          [.add ['a'] (0, 0) (0, 0, 0, 1),
           .add_anchored ['a'] (3, 4) .Center .Center (0, 0, 0, 1)]
        ).vertex_data.length / 4 * 6 ∧
      ∀ i ∈ (runOps [('a', (⟨0, 0, 10, 5, 7, (0, 0), 0, 0⟩ : BitmapChar))]
          [.add ['a'] (0, 0) (0, 0, 0, 1),
           .add_anchored ['a'] (3, 4) .Center .Center (0, 0, 0, 1)]
        ).index_data,
        i < (runOps [('a', (⟨0, 0, 10, 5, 7, (0, 0), 0, 0⟩ : BitmapChar))]
          [.add ['a'] (0, 0) (0, 0, 0, 1),
           .add_anchored ['a'] (3, 4) .Center .Center (0, 0, 0, 1)]
        ).vertex_data.length :=
  pending_lists_invariant
    [('a', (⟨0, 0, 10, 5, 7, (0, 0), 0, 0⟩ : BitmapChar))]
    [.add ['a'] (0, 0) (0, 0, 0, 1),
     .add_anchored ['a'] (3, 4) .Center .Center (0, 0, 0, 1)]
    (by decide)

/-! ## Lemmas on the atlas builder -/

lemma pack_loop_nil (W B cx ih : Int) :
    pack_loop W B [] cx ih = ([], ih + B) := rfl

lemma pack_loop_cons_wrap (W B : Int) (ch : Char) (g : RawGlyph)
    (tl : List (Char × RawGlyph)) (cx ih : Int) (h : cx + g.width > W) :
    pack_loop W B ((ch, g) :: tl) cx ih =
      ((ch, ⟨g, 0, ih + B⟩) :: (pack_loop W B tl g.width (ih + B)).1,
       (pack_loop W B tl g.width (ih + B)).2) := by
  simp [pack_loop, h]

lemma pack_loop_cons_fit (W B : Int) (ch : Char) (g : RawGlyph)
    (tl : List (Char × RawGlyph)) (cx ih : Int) (h : ¬ cx + g.width > W) :
    pack_loop W B ((ch, g) :: tl) cx ih =
      ((ch, ⟨g, cx, ih⟩) :: (pack_loop W B tl (cx + g.width) ih).1,
       (pack_loop W B tl (cx + g.width) ih).2) := by
  simp [pack_loop, h]

lemma foldl_max_init_le {α : Type} (f : α → Int) :
    ∀ (l : List α) (a : Int), a ≤ l.foldl (fun m p => max m (f p)) a := by
  intro l
  induction l with
  | nil => intro a; exact le_refl a
  | cons b t ih =>
    intro a
    exact le_trans (le_max_left a (f b)) (ih (max a (f b)))

lemma foldl_max_mem_le {α : Type} (f : α → Int) :
    ∀ (l : List α) (a : Int) (p : α), p ∈ l →
      f p ≤ l.foldl (fun m q => max m (f q)) a := by
  intro l
  induction l with
  | nil =>
    intro a p hp
    simp at hp
  | cons b t ih =>
    intro a p hp
    rcases List.mem_cons.mp hp with rfl | hp
    · exact le_trans (le_max_right a (f p)) (foldl_max_init_le f t _)
    · exact ih _ p hp

lemma ch_box_height_nonneg (l : List (Char × RawGlyph)) :
    0 ≤ ch_box_height l := by
  unfold ch_box_height
  exact foldl_max_init_le (fun (p : Char × RawGlyph) => p.2.height) l 0

lemma ideal_image_width_nonneg (x : Int) : 0 ≤ ideal_image_width x := by
  unfold ideal_image_width
  exact Int.ofNat_nonneg _

lemma atlas_image_width_nonneg (l : List (Char × RawGlyph)) :
    0 ≤ atlas_image_width l :=
  le_trans (ideal_image_width_nonneg _) (le_max_right _ _)

lemma rasterize_all_total (rasterize : Char → Option RawGlyph) :
    ∀ (cs : List Char), (∀ ch ∈ cs, rasterize ch ≠ none) →
      ∃ l, rasterize_all rasterize cs = some l := by
  intro cs
  induction cs with
  | nil => intro _; exact ⟨[], rfl⟩
  | cons ch rest ih =>
    intro hall
    cases hch : rasterize ch with
    | none => exact absurd hch (hall ch (by simp))
    | some g =>
      obtain ⟨l, hl⟩ := ih (fun c hc => hall c (by simp [hc]))
      exact ⟨(ch, g) :: l, by simp [rasterize_all, hch, hl]⟩

lemma rasterize_all_mem (rasterize : Char → Option RawGlyph) :
    ∀ (cs : List Char) (l : List (Char × RawGlyph)),
      rasterize_all rasterize cs = some l →
      ∀ p ∈ l, p.1 ∈ cs ∧ rasterize p.1 = some p.2 := by
  intro cs
  induction cs with
  | nil =>
    intro l hl p hp
    simp only [rasterize_all, Option.some.injEq] at hl
    subst hl
    simp at hp
  | cons ch rest ih =>
    intro l hl p hp
    cases hch : rasterize ch with
    | none => simp [rasterize_all, hch] at hl
    | some g =>
      cases hrest : rasterize_all rasterize rest with
      | none => simp [rasterize_all, hch, hrest] at hl
      | some l2 =>
        simp only [rasterize_all, hch, hrest, Option.some.injEq] at hl
        subst hl
        rcases List.mem_cons.mp hp with rfl | hp
        · exact ⟨by simp, hch⟩
        · obtain ⟨h1, h2⟩ := ih l2 hrest p hp
          exact ⟨by simp [h1], h2⟩

lemma BitmapFont.new_ok_eq (face_chars : List Char)
    (rasterize : Char → Option RawGlyph) (font_size : Int)
    (chars : Option (List Char)) (l : List (Char × RawGlyph))
    (hne : resolve_chars chars face_chars ≠ [])
    (hl : rasterize_all rasterize (resolve_chars chars face_chars) =
      some l) :
    BitmapFont.new face_chars rasterize font_size chars =
      .ok { width := atlas_image_width l,
            height := (atlas_pack l).2,
            chars := (atlas_pack l).1.map
              (normalize_char font_size (atlas_image_width l)
                (atlas_pack l).2),
            placements := (atlas_pack l).1 } := by
  simp only [BitmapFont.new]
  rw [if_neg (by simp [hne]), hl]

lemma placed_disjoint_of_sep {a b : PlacedGlyph}
    (h : a.px + a.glyph.width ≤ b.px ∨ b.px + b.glyph.width ≤ a.px ∨
      a.py + a.glyph.height ≤ b.py ∨ b.py + b.glyph.height ≤ a.py) :
    placedDisjoint a b := by
  intro x y hxy
  simp only [inRect] at hxy
  obtain ⟨⟨h1, h2, h3, h4⟩, h5, h6, h7, h8⟩ := hxy
  omega

lemma pack_loop_spec (W B : Int) (hB : 0 ≤ B) :
    ∀ (l : List (Char × RawGlyph)) (cx ih : Int),
      (∀ p ∈ l, 0 ≤ p.2.width ∧ 0 ≤ p.2.height ∧ p.2.width ≤ W ∧
        p.2.height ≤ B) →
      0 ≤ cx → cx ≤ W → 0 ≤ ih →
      ((∀ q ∈ (pack_loop W B l cx ih).1,
        0 ≤ q.2.px ∧ q.2.px + q.2.glyph.width ≤ W ∧
        ih ≤ q.2.py ∧ 0 ≤ q.2.glyph.width ∧ 0 ≤ q.2.glyph.height ∧
        q.2.glyph.height ≤ B ∧
        q.2.py + q.2.glyph.height ≤ (pack_loop W B l cx ih).2 ∧
        (cx ≤ q.2.px ∨ ih + B ≤ q.2.py)) ∧
      (pack_loop W B l cx ih).1.Pairwise
        (fun a b => placedDisjoint a.2 b.2) ∧
      ih + B ≤ (pack_loop W B l cx ih).2) := by
  intro l
  induction l with
  | nil =>
    intro cx ih _ _ _ _
    refine ⟨?_, ?_, ?_⟩
    · intro q hq
      rw [pack_loop_nil] at hq
      simp at hq
    · rw [pack_loop_nil]
      exact List.Pairwise.nil
    · simp [pack_loop_nil]
  | cons hd tl ihl =>
    obtain ⟨ch, g⟩ := hd
    intro cx ih hl hcx hcxW hih
    have hg : 0 ≤ g.width ∧ 0 ≤ g.height ∧ g.width ≤ W ∧ g.height ≤ B :=
      hl (ch, g) (List.mem_cons_self _ _)
    have htl : ∀ p ∈ tl, 0 ≤ p.2.width ∧ 0 ≤ p.2.height ∧
        p.2.width ≤ W ∧ p.2.height ≤ B :=
      fun p hp => hl p (List.mem_cons_of_mem _ hp)
    by_cases hwrap : cx + g.width > W
    · rw [pack_loop_cons_wrap W B ch g tl cx ih hwrap]
      obtain ⟨hq, hpw, hht⟩ :=
        ihl g.width (ih + B) htl hg.1 hg.2.2.1 (by omega)
      refine ⟨?_, ?_, ?_⟩
      · intro q hq2
        rcases List.mem_cons.mp hq2 with rfl | hq2
        · refine ⟨?_, ?_, ?_, ?_, ?_, ?_, ?_, ?_⟩ <;> simp <;> omega
        · obtain ⟨o1, o2, o3, o4, o5, o6, o7, o8⟩ := hq q hq2
          exact ⟨o1, o2, by omega, o4, o5, o6, o7, Or.inr (by omega)⟩
      · rw [List.pairwise_cons]
        refine ⟨?_, hpw⟩
        intro b hb
        obtain ⟨o1, o2, o3, o4, o5, o6, o7, o8⟩ := hq b hb
        apply placed_disjoint_of_sep
        simp
        omega
      · simp
        omega
    · rw [pack_loop_cons_fit W B ch g tl cx ih hwrap]
      obtain ⟨hq, hpw, hht⟩ :=
        ihl (cx + g.width) ih htl (by omega) (by omega) hih
      refine ⟨?_, ?_, ?_⟩
      · intro q hq2
        rcases List.mem_cons.mp hq2 with rfl | hq2
        · refine ⟨?_, ?_, ?_, ?_, ?_, ?_, ?_, ?_⟩ <;> simp <;> omega
        · obtain ⟨o1, o2, o3, o4, o5, o6, o7, o8⟩ := hq q hq2
          refine ⟨o1, o2, o3, o4, o5, o6, o7, ?_⟩
          rcases o8 with h8 | h8
          · exact Or.inl (by omega)
          · exact Or.inr h8
      · rw [List.pairwise_cons]
        refine ⟨?_, hpw⟩
        intro b hb
        obtain ⟨o1, o2, o3, o4, o5, o6, o7, o8⟩ := hq b hb
        apply placed_disjoint_of_sep
        simp
        omega
      · exact hht

/-- C3: for every nonempty resolved character set whose glyphs all
rasterize successfully (with the nonnegative pixel dimensions a rasterized
bitmap has), the build succeeds, and in the resulting atlas the pixel-space
placement rectangles of the placed glyphs are pairwise disjoint. -/
theorem atlas_rects_disjoint (face_chars : List Char)
    (rasterize : Char → Option RawGlyph) (font_size : Int)
    (chars : Option (List Char))
    (hne : resolve_chars chars face_chars ≠ [])
    (hras : ∀ ch ∈ resolve_chars chars face_chars, rasterize ch ≠ none)
    (hdim : ∀ ch ∈ resolve_chars chars face_chars, ∀ g,
      rasterize ch = some g → 0 ≤ g.width ∧ 0 ≤ g.height) :
    ∃ font, BitmapFont.new face_chars rasterize font_size chars =
        .ok font ∧
      font.placements.Pairwise (fun a b => placedDisjoint a.2 b.2) := by
  obtain ⟨l, hl⟩ := rasterize_all_total rasterize _ hras
  have hmem := rasterize_all_mem rasterize _ l hl
  have hdims : ∀ p ∈ l, 0 ≤ p.2.width ∧ 0 ≤ p.2.height ∧
      p.2.width ≤ atlas_image_width l ∧ p.2.height ≤ ch_box_height l := by
    intro p hp
    obtain ⟨hkey, hrast⟩ := hmem p hp
    obtain ⟨hw, hh⟩ := hdim p.1 hkey p.2 hrast
    refine ⟨hw, hh, ?_, ?_⟩
    · exact le_trans (foldl_max_mem_le (fun q => q.2.width) l 0 p hp)
        (le_max_left _ _)
    · exact foldl_max_mem_le (fun q => q.2.height) l 0 p hp
  obtain ⟨hq, hpw, hht⟩ := pack_loop_spec (atlas_image_width l)
    (ch_box_height l) (ch_box_height_nonneg l) l 0 0 hdims (le_refl 0)
    (atlas_image_width_nonneg l) (le_refl 0)
  exact ⟨_, BitmapFont.new_ok_eq face_chars rasterize font_size chars l
    hne hl, hpw⟩

/-- C3 witness: the atlas of a two-character set. -/
theorem atlas_rects_disjoint_witness :
    ∃ font, BitmapFont.new ['a', 'b'] (fun _ => some ⟨3, 4, 0, 4, 256⟩)
        16 none = .ok font ∧
      font.placements.Pairwise (fun a b => placedDisjoint a.2 b.2) :=
  atlas_rects_disjoint ['a', 'b'] (fun _ => some ⟨3, 4, 0, 4, 256⟩)
    16 none (by decide) (by decide)
    (by
      intro ch hch g hg
      injection hg with hh
      subst hh
      decide)

lemma frac_add_le_one (a b W : Int) (ha : 0 ≤ a) (hb : 0 ≤ b) (hW : 0 ≤ W)
    (hab : a + b ≤ W) :
    (a : ℚ) / (W : ℚ) + (b : ℚ) / (W : ℚ) ≤ 1 := by
  rcases eq_or_lt_of_le hW with hW0 | hWpos
  · have ha0 : a = 0 := by omega
    have hb0 : b = 0 := by omega
    simp [ha0, hb0]
  · rw [div_add_div_same]
    rw [div_le_one (by exact_mod_cast hWpos)]
    exact_mod_cast hab

/-- C4: every glyph of a successfully built atlas has its normalized
texture rectangle inside the unit square: tex.1 + tex_width and
tex.2 + tex_height are at most 1, exactly, in rational arithmetic, because
the pixel placement plus the pixel extent never exceeds the image width,
respectively image height. -/
theorem tex_rect_within_unit (face_chars : List Char)
    (rasterize : Char → Option RawGlyph) (font_size : Int)
    (chars : Option (List Char)) (font : BitmapFontModel)
    (hdim : ∀ ch ∈ resolve_chars chars face_chars, ∀ g,
      rasterize ch = some g → 0 ≤ g.width ∧ 0 ≤ g.height)
    (hok : BitmapFont.new face_chars rasterize font_size chars = .ok font) :
    ∀ p ∈ font.chars,
      p.2.tex.1 + p.2.tex_width ≤ 1 ∧ p.2.tex.2 + p.2.tex_height ≤ 1 := by
  by_cases he : (resolve_chars chars face_chars).isEmpty
  · exfalso
    simp only [BitmapFont.new] at hok
    rw [if_pos he] at hok
    simp at hok
  · have hne : resolve_chars chars face_chars ≠ [] := by
      rw [Bool.not_eq_true] at he
      exact List.isEmpty_eq_false.mp he
    cases hl : rasterize_all rasterize (resolve_chars chars face_chars) with
    | none =>
      exfalso
      simp only [BitmapFont.new] at hok
      rw [if_neg (by simp [hne]), hl] at hok
      simp at hok
    | some l =>
      rw [BitmapFont.new_ok_eq face_chars rasterize font_size chars l
        hne hl] at hok
      injection hok with hfont
      subst hfont
      have hmem := rasterize_all_mem rasterize _ l hl
      have hdims : ∀ p ∈ l, 0 ≤ p.2.width ∧ 0 ≤ p.2.height ∧
          p.2.width ≤ atlas_image_width l ∧
          p.2.height ≤ ch_box_height l := by
        intro p hp
        obtain ⟨hkey, hrast⟩ := hmem p hp
        obtain ⟨hw, hh⟩ := hdim p.1 hkey p.2 hrast
        refine ⟨hw, hh, ?_, ?_⟩
        · exact le_trans (foldl_max_mem_le (fun q => q.2.width) l 0 p hp)
            (le_max_left _ _)
        · exact foldl_max_mem_le (fun q => q.2.height) l 0 p hp
      obtain ⟨hq, hpw, hht⟩ := pack_loop_spec (atlas_image_width l)
        (ch_box_height l) (ch_box_height_nonneg l) l 0 0 hdims (le_refl 0)
        (atlas_image_width_nonneg l) (le_refl 0)
      intro p hp
      obtain ⟨q, hq2, rfl⟩ := List.mem_map.mp hp
      obtain ⟨o1, o2, o3, o4, o5, o6, o7, o8⟩ := hq q hq2
      have hH : 0 ≤ (atlas_pack l).2 := by
        have hB := ch_box_height_nonneg l
        have := hht
        simp only [atlas_pack] at *
        omega
      constructor
      · exact frac_add_le_one q.2.px q.2.glyph.width (atlas_image_width l)
          o1 o4 (atlas_image_width_nonneg l) o2
      · exact frac_add_le_one q.2.py q.2.glyph.height (atlas_pack l).2
          (by omega) o5 hH o7

/-- The atlas built from the concrete two-character example, used by the
witness below. -/
def exBuiltFont : BitmapFontModel :=
  match BitmapFont.new ['a', 'b'] (fun _ => some ⟨3, 4, 0, 4, 256⟩)
      16 none with
  | .ok f => f
  | .error _ => default

lemma headI_mem {α : Type} [Inhabited α] (l : List α) (h : l ≠ []) :
    l.headI ∈ l := by
  cases l with
  | nil => exact absurd rfl h
  | cons a t => exact List.mem_cons_self a t

/-- C4 witness: the first glyph of the concrete atlas. -/
theorem tex_rect_within_unit_witness :
    exBuiltFont.chars.headI.2.tex.1 +
        exBuiltFont.chars.headI.2.tex_width ≤ 1 ∧
      exBuiltFont.chars.headI.2.tex.2 +
        exBuiltFont.chars.headI.2.tex_height ≤ 1 := by
  have hlen : exBuiltFont.chars.length = 2 := rfl
  have hne2 : exBuiltFont.chars ≠ [] := by
    intro hemp
    rw [hemp] at hlen
    simp at hlen
  have h := tex_rect_within_unit ['a', 'b']
    (fun _ => some ⟨3, 4, 0, 4, 256⟩) 16 none exBuiltFont
    (by
      intro ch hch g hg
      injection hg with hh
      subst hh
      decide)
    (by rfl)
  exact h exBuiltFont.chars.headI (headI_mem _ hne2)

end GfxText
